import Mathlib

/-!
# hex2bin: a shallow embedding of `src/hex2bin.h` and its verified properties

The header has two functions, `unhex` (one hexadecimal character to its value)
and `hex2bin` (an array of hexadecimal characters to an array of bytes).

Modelling choices:

* a C `char` is the `Int` it is promoted to in an expression, so that the
  embedding covers both a signed and an unsigned `char`;
* `unsigned` is a `Nat` with every addition reduced modulo `UINT_MOD = 2 ^ 32`;
* `unsigned char` is a `Nat` reduced modulo 256 where the C code converts to it;
* the two buffers are lists, the input `hex : List Int` and the output
  `bin : List Nat`; `hlen` and `blen` are separate arguments as in C, and an
  access outside a list is a `Fault` (undefined behaviour in C), not a value;
* the `for` loop is a recursion on a fuel argument, `hex2bin` supplies `blen`
  units; running out of fuel is a `Fault` of its own, never a result;
* `hex2bin.iterations` lists the control states of the same loop header, and
  `hex2binWith` is the same loop with the nibble decoder as a parameter.
-/

namespace Hex2Bin

/-! ## Data model -/

/-- Reasons for which the embedded loop stops without a result. -/
inductive Fault where
  /-- The fuel of the recursion ran out before the loop condition failed. -/
  | fuel
  /-- A read of `hex[j]` or `hex[j+1]` outside the input buffer. -/
  | read
  /-- A write of `bin[i]` outside the output buffer. -/
  | write
  deriving DecidableEq, Repr

deriving instance DecidableEq for Except

/-- Number of values of the C type `unsigned` (32 bits). -/
def UINT_MOD : Nat := 4294967296

/-! ## The two functions of `hex2bin.h` -/

/-- Embedding of `unhex`: `return ((h & 0x0f) + (h >> 6) * 9);`, the `int` result
converted to `unsigned char`. -/
def unhex (h : Int) : Nat :=
  ((Int.land h 0x0f + Int.shiftRight h 6 * 9) % 256).toNat

/-- Embedding of the stored expression `(hi << 4) | lo`, converted to
`unsigned char` by the assignment to `((unsigned char*)bin)[i]`. -/
def pack (hi lo : Nat) : Nat := ((hi <<< 4) ||| lo) % 256

/-- Embedding of the loop of `hex2bin`,
`for(i = 0, j = 0; (i < blen) && (j+1 < hlen); ++i, j+=2)`, started in the state
`(i, j, bin)`. The result is the final `i` together with the final output buffer. -/
def hex2bin.loop (hex : List Int) (hlen blen : Nat) :
    Nat → Nat → Nat → List Nat → Except Fault (Nat × List Nat)
  | fuel, i, j, bin =>
    if i < blen ∧ (j + 1) % UINT_MOD < hlen then
      match fuel with
      | 0 => .error .fuel
      | fuel + 1 =>
        match hex[j]?, hex[(j + 1) % UINT_MOD]? with
        | some c0, some c1 =>
          let hi := unhex c0
          let lo := unhex c1
          if i < bin.length then
            hex2bin.loop hex hlen blen fuel ((i + 1) % UINT_MOD) ((j + 2) % UINT_MOD)
              (bin.set i (pack hi lo))
          else .error .write
        | _, _ => .error .read
    else .ok (i, bin)

/-- Embedding of `hex2bin(hex, hlen, bin, blen)`: the loop from `i = 0, j = 0`,
then `return i`. -/
def hex2bin (hex : List Int) (hlen : Nat) (bin : List Nat) (blen : Nat) :
    Except Fault (Nat × List Nat) :=
  hex2bin.loop hex hlen blen blen 0 0 bin

/-! ## Vocabulary of the specification -/

/-- The character codes of a text, as the `char` values a C string holds. -/
def ofString (s : String) : List Int := s.toList.map (fun c => (c.toNat : Int))

/-- A valid hexadecimal digit: `'0'..'9'`, `'a'..'f'` or `'A'..'F'`. -/
def isHexDigit (c : Int) : Prop :=
  (48 ≤ c ∧ c ≤ 57) ∨ (97 ≤ c ∧ c ≤ 102) ∨ (65 ≤ c ∧ c ≤ 70)

instance (c : Int) : Decidable (isHexDigit c) := by
  unfold isHexDigit; infer_instance

/-- Reference semantics, the standard value of a hexadecimal digit: `'0'..'9'`
give 0..9, `'a'..'f'` give 10..15, `'A'..'F'` give 10..15 (0 for any other
character, which no statement below relies on). -/
def hexval (c : Int) : Nat :=
  if 48 ≤ c ∧ c ≤ 57 then (c - 48).toNat
  else if 97 ≤ c ∧ c ≤ 102 then (c - 97).toNat + 10
  else if 65 ≤ c ∧ c ≤ 70 then (c - 65).toNat + 10
  else 0

/-- The control states `(i, j)` in which the body of the loop of `hex2bin` runs, in
the order of the iterations: the header
`for(i = 0, j = 0; (i < blen) && (j+1 < hlen); ++i, j+=2)` alone, without the body,
with the same fuel as `hex2bin.loop`. -/
def hex2bin.iterations (hlen blen : Nat) : Nat → Nat → Nat → List (Nat × Nat)
  | 0, _, _ => []
  | fuel + 1, i, j =>
    if i < blen ∧ (j + 1) % UINT_MOD < hlen then
      (i, j) :: hex2bin.iterations hlen blen fuel ((i + 1) % UINT_MOD) ((j + 2) % UINT_MOD)
    else []

/-- The loop of `hex2bin` with the nibble decoder as a parameter `f` in the place of
`unhex`, everything else as in `hex2bin.loop`: the reimplementation of the
specification, with a lookup table or a conditional as `f`. -/
def hex2binWith.loop (f : Int → Nat) (hex : List Int) (hlen blen : Nat) :
    Nat → Nat → Nat → List Nat → Except Fault (Nat × List Nat)
  | fuel, i, j, bin =>
    if i < blen ∧ (j + 1) % UINT_MOD < hlen then
      match fuel with
      | 0 => .error .fuel
      | fuel + 1 =>
        match hex[j]?, hex[(j + 1) % UINT_MOD]? with
        | some c0, some c1 =>
          let hi := f c0
          let lo := f c1
          if i < bin.length then
            hex2binWith.loop f hex hlen blen fuel ((i + 1) % UINT_MOD) ((j + 2) % UINT_MOD)
              (bin.set i (pack hi lo))
          else .error .write
        | _, _ => .error .read
    else .ok (i, bin)

/-- The function `hex2bin` built on the nibble decoder `f`. -/
def hex2binWith (f : Int → Nat) (hex : List Int) (hlen : Nat) (bin : List Nat) (blen : Nat) :
    Except Fault (Nat × List Nat) :=
  hex2binWith.loop f hex hlen blen blen 0 0 bin

/-- A nibble decoder by lookup in a table of the 22 valid digits (0 elsewhere). -/
def unhexTable (c : Int) : Nat :=
  ((ofString "0123456789abcdefABCDEF").zip
    [0, 1, 2, 3, 4, 5, 6, 7, 8, 9, 10, 11, 12, 13, 14, 15, 10, 11, 12, 13, 14, 15]).lookup c
    |>.getD 0

/-- The byte the loop stores at output position `k`: packed from the input
characters at positions `2 * k` and `2 * k + 1`. -/
def byteAt (hex : List Int) (k : Nat) : Nat :=
  pack (unhex (hex.getD (2 * k) 0)) (unhex (hex.getD (2 * k + 1) 0))

/-- The first `n` bytes decoded from `hex`. -/
def decode (hex : List Int) (n : Nat) : List Nat := (List.range n).map (byteAt hex)

/-- Reference semantics of the inverse direction (not part of the header): the
hexadecimal digit of a nibble `v < 16`, in uppercase or in lowercase. -/
def hexDigit (upper : Bool) (v : Nat) : Int :=
  if v < 10 then 48 + (v : Int) else (if upper then 55 else 87) + (v : Int)

/-- Reference semantics of hex-encoding: two digits per byte, high nibble first. -/
def hexEncode (upper : Bool) : List Nat → List Int
  | [] => []
  | b :: bs => hexDigit upper (b / 16) :: hexDigit upper (b % 16) :: hexEncode upper bs

/-- Two characters differ at most in the case of a letter `a`..`f`. -/
def sameUpToCase (c d : Int) : Prop :=
  c = d ∨ (97 ≤ c ∧ c ≤ 102 ∧ d = c - 32) ∨ (97 ≤ d ∧ d ≤ 102 ∧ c = d - 32)

/-! ## The nibble decoder on valid digits -/

theorem unhex_of_isHexDigit (c : Int) (hc : isHexDigit c) :
    unhex c = hexval c ∧ hexval c ≤ 15 := by
  rcases hc with ⟨h1, h2⟩ | ⟨h1, h2⟩ | ⟨h1, h2⟩ <;> interval_cases c <;> decide

theorem pack_nibbles : ∀ a < 16, ∀ b < 16, pack a b = 16 * a + b := by decide

/-! ## The loop -/

theorem loop_step (hex : List Int) (hlen blen fuel i : Nat) (bin : List Nat)
    (hh : hlen < UINT_MOD) (hi : i < blen) (hj : 2 * i + 1 < hlen)
    (hx : 2 * i + 1 < hex.length) (hb : i < bin.length) :
    hex2bin.loop hex hlen blen (fuel + 1) i (2 * i) bin
      = hex2bin.loop hex hlen blen fuel (i + 1) (2 * (i + 1)) (bin.set i (byteAt hex i)) := by
  have hM : UINT_MOD = 4294967296 := rfl
  have e1 : (2 * i + 1) % UINT_MOD = 2 * i + 1 := Nat.mod_eq_of_lt (by omega)
  have e2 : (2 * i + 2) % UINT_MOD = 2 * (i + 1) := by
    rw [Nat.mod_eq_of_lt (by omega)]; ring
  have e3 : (i + 1) % UINT_MOD = i + 1 := Nat.mod_eq_of_lt (by omega)
  have r0 : hex[2 * i]? = some (hex.getD (2 * i) 0) := by
    rw [List.getD_eq_getElem?_getD, List.getElem?_eq_getElem (by omega)]; rfl
  have r1 : hex[2 * i + 1]? = some (hex.getD (2 * i + 1) 0) := by
    rw [List.getD_eq_getElem?_getD, List.getElem?_eq_getElem (by omega)]; rfl
  rw [hex2bin.loop.eq_def]
  simp only [e1, e2, e3, r0, r1, hi, hj, hb, and_self, if_true, byteAt]

theorem loop_stop (hex : List Int) (hlen blen fuel i j : Nat) (bin : List Nat)
    (h : ¬ (i < blen ∧ (j + 1) % UINT_MOD < hlen)) :
    hex2bin.loop hex hlen blen fuel i j bin = .ok (i, bin) := by
  rw [hex2bin.loop.eq_def]
  simp only [h, if_false]

/-- Loop invariant in closed form: started at `i` with `j = 2 * i`, the loop ends
with `i = n = min (hlen / 2) blen`, has kept the positions below `i` and from `n`
on, and has stored `byteAt hex k` at every `k` in between. -/
theorem loop_eq (hex : List Int) (hlen blen n : Nat) (hh : hlen < UINT_MOD)
    (hn : n = min (hlen / 2) blen) (hx : 2 * n ≤ hex.length) :
    ∀ (fuel i : Nat) (bin : List Nat), i ≤ n → n - i ≤ fuel → n ≤ bin.length →
      hex2bin.loop hex hlen blen fuel i (2 * i) bin
        = .ok (n, bin.take i ++ (List.range' i (n - i)).map (byteAt hex) ++ bin.drop n) := by
  have hM : UINT_MOD = 4294967296 := rfl
  have hn1 : n ≤ hlen / 2 := hn ▸ Nat.min_le_left _ _
  have hn2 : n ≤ blen := hn ▸ Nat.min_le_right _ _
  have hn3 : n = hlen / 2 ∨ n = blen := by
    rcases Nat.le_total (hlen / 2) blen with h | h
    · left; rw [hn]; exact Nat.min_eq_left h
    · right; rw [hn]; exact Nat.min_eq_right h
  clear hn
  intro fuel
  induction fuel with
  | zero =>
    intro i bin h1 h2 _
    have hi : i = n := by omega
    rw [loop_stop]
    · rw [← hi]; simp
    · rw [Nat.mod_eq_of_lt (by omega)]; omega
  | succ fuel ih =>
    intro i bin h1 h2 h3
    by_cases hi : i = n
    · rw [loop_stop]
      · rw [← hi]; simp
      · rw [Nat.mod_eq_of_lt (by omega)]; omega
    · have hlt : i < n := by omega
      rw [loop_step hex hlen blen fuel i bin hh (by omega) (by omega) (by omega) (by omega)]
      rw [ih (i + 1) _ (by omega) (by omega) (by simpa using h3)]
      have hk : n - i = (n - (i + 1)) + 1 := by omega
      rw [hk, List.range'_succ, List.drop_set_of_lt _ _ hlt, List.take_succ,
        List.set_take, List.set_eq_of_length_le (by simp)]
      simp [List.getElem?_set, (by omega : i < bin.length)]

/-- What `hex2bin` computes whenever every access is inside its buffer: the count
`min (hlen / 2) blen`, that many decoded bytes, and the rest of `bin` untouched. -/
theorem hex2bin_ok (hex : List Int) (hlen : Nat) (bin : List Nat) (blen : Nat)
    (hh : hlen < UINT_MOD) (hx : 2 * min (hlen / 2) blen ≤ hex.length)
    (hb : min (hlen / 2) blen ≤ bin.length) :
    hex2bin hex hlen bin blen
      = .ok (min (hlen / 2) blen,
          decode hex (min (hlen / 2) blen) ++ bin.drop (min (hlen / 2) blen)) := by
  have h := loop_eq hex hlen blen _ hh rfl hx blen 0 bin (Nat.zero_le _)
    (by rw [Nat.sub_zero]; exact Nat.min_le_right _ _) hb
  simpa [hex2bin, decode, List.range_eq_range'] using h

/-! ## Facts about the decoded bytes -/

theorem decode_length (hex : List Int) (n : Nat) : (decode hex n).length = n := by
  simp [decode]

theorem getElem?_decode (hex : List Int) (n k : Nat) (hk : k < n) :
    (decode hex n)[k]? = some (byteAt hex k) := by
  simp [decode, List.getElem?_range hk]

theorem getElem?_out_lt (hex : List Int) (n k : Nat) (rest : List Nat) (hk : k < n) :
    (decode hex n ++ rest)[k]? = some (byteAt hex k) := by
  rw [List.getElem?_append_left (by rw [decode_length]; exact hk)]
  exact getElem?_decode hex n k hk

theorem getElem?_out_ge (hex : List Int) (n k : Nat) (bin : List Nat) (hk : n ≤ k) :
    (decode hex n ++ bin.drop n)[k]? = bin[k]? := by
  rw [List.getElem?_append_right (by rw [decode_length]; exact hk), decode_length,
    List.getElem?_drop]
  congr 1
  omega

theorem out_length (hex : List Int) (n : Nat) (bin : List Nat) (hn : n ≤ bin.length) :
    (decode hex n ++ bin.drop n).length = bin.length := by
  rw [List.length_append, decode_length, List.length_drop]
  omega

/-- The decoded bytes depend on the input only through the nibble values of the
characters that are read. -/
theorem decode_congr (hex hex' : List Int) (n : Nat)
    (h : ∀ k, k < 2 * n → unhex (hex.getD k 0) = unhex (hex'.getD k 0)) :
    decode hex n = decode hex' n := by
  unfold decode
  apply List.map_congr_left
  intro k hk
  have hk' : k < n := List.mem_range.mp hk
  unfold byteAt
  rw [h (2 * k) (by omega), h (2 * k + 1) (by omega)]

theorem getD_mem (hex : List Int) (k : Nat) (hk : k < hex.length) : hex.getD k 0 ∈ hex := by
  rw [List.getD_eq_getElem _ _ hk]
  exact List.getElem_mem hk

/-- On a pair of valid digits the stored byte is the standard one, high nibble first. -/
theorem byteAt_valid (hex : List Int) (k : Nat) (hv : ∀ c ∈ hex, isHexDigit c)
    (hk : 2 * k + 1 < hex.length) :
    byteAt hex k = 16 * hexval (hex.getD (2 * k) 0) + hexval (hex.getD (2 * k + 1) 0) := by
  have h0 := unhex_of_isHexDigit _ (hv _ (getD_mem hex (2 * k) (by omega)))
  have h1 := unhex_of_isHexDigit _ (hv _ (getD_mem hex (2 * k + 1) hk))
  unfold byteAt
  rw [h0.1, h1.1]
  exact pack_nibbles _ (by omega) _ (by omega)

/-! ## Valid input and the returned count -/

/-- C1: on each of the 22 valid hexadecimal digits `unhex` returns the standard
value of the digit, hence a value in 0..15. -/
theorem unhex_valid (c : Int) (hc : isHexDigit c) : unhex c = hexval c ∧ unhex c ≤ 15 := by
  have h := unhex_of_isHexDigit c hc
  exact ⟨h.1, h.1 ▸ h.2⟩

/-- Witness of C1 at `'a'`, `'F'` and `'0'`, whose values are 10, 15 and 0. -/
theorem unhex_valid_witness :
    (isHexDigit 97 ∧ isHexDigit 70 ∧ isHexDigit 48) ∧
      (unhex 97 = hexval 97 ∧ unhex 97 ≤ 15) ∧ (unhex 70 = hexval 70 ∧ unhex 70 ≤ 15) ∧
      (unhex 48 = hexval 48 ∧ unhex 48 ≤ 15) ∧
      ofString "aF0" = [97, 70, 48] ∧ hexval 97 = 10 ∧ hexval 70 = 15 ∧ hexval 48 = 0 :=
  ⟨by decide, unhex_valid 97 (by decide), unhex_valid 70 (by decide),
    unhex_valid 48 (by decide), by decide, by decide, by decide, by decide⟩

/-- C2: on an input of `hlen` valid digits, `hlen` even, with a capacity
`blen ≥ hlen / 2`, `hex2bin` returns exactly `hlen / 2` (so that every character is
consumed, `2 * (hlen / 2) = hlen`) and output byte `k < hlen / 2` is
`16 * hexval hex[2k] + hexval hex[2k+1]`, the first character of a pair being the
high nibble. -/
theorem hex2bin_even_valid (hex : List Int) (hlen : Nat) (bin : List Nat) (blen : Nat)
    (hlen_eq : hex.length = hlen) (hv : ∀ c ∈ hex, isHexDigit c) (heven : hlen % 2 = 0)
    (hh : hlen < UINT_MOD) (hcap : hlen / 2 ≤ blen) (hb : blen ≤ bin.length) :
    ∃ out, hex2bin hex hlen bin blen = .ok (hlen / 2, out) ∧ 2 * (hlen / 2) = hlen ∧
      out.length = bin.length ∧
      ∀ k, k < hlen / 2 →
        out[k]? = some (16 * hexval (hex.getD (2 * k) 0) + hexval (hex.getD (2 * k + 1) 0)) := by
  have hmin : min (hlen / 2) blen = hlen / 2 := Nat.min_eq_left hcap
  have h := hex2bin_ok hex hlen bin blen hh (by rw [hmin]; omega) (by rw [hmin]; omega)
  rw [hmin] at h
  refine ⟨_, h, by omega, out_length hex _ bin (by omega), ?_⟩
  intro k hk
  rw [getElem?_out_lt hex _ k _ hk, byteAt_valid hex k hv (by omega)]

/-- Witness of C2: `"c0FFee"` with capacity 3 decodes to `C0 FF EE`. -/
theorem hex2bin_even_valid_witness :
    hex2bin (ofString "c0FFee") 6 [1, 2, 3, 4] 3 = .ok (3, [0xC0, 0xFF, 0xEE, 4]) ∧
    ∃ out, hex2bin (ofString "c0FFee") 6 [1, 2, 3, 4] 3 = .ok (6 / 2, out) ∧
      2 * (6 / 2) = 6 ∧ out.length = [1, 2, 3, 4].length ∧
      ∀ k, k < 6 / 2 →
        out[k]? = some (16 * hexval ((ofString "c0FFee").getD (2 * k) 0)
          + hexval ((ofString "c0FFee").getD (2 * k + 1) 0)) :=
  ⟨by decide,
    hex2bin_even_valid (ofString "c0FFee") 6 [1, 2, 3, 4] 3 (by decide) (by decide) (by decide)
      (by decide) (by decide) (by decide)⟩

/-- C3: for every `hlen` below `2 ^ 32` (up to `2 ^ 32 - 1`), every `blen` and every
content of the input, the count returned by `hex2bin` is `min (hlen / 2) blen`; it
exceeds neither `blen` nor `hlen / 2`, and no character of the input enters it. -/
theorem hex2bin_count (hex : List Int) (hlen : Nat) (bin : List Nat) (blen : Nat)
    (hh : hlen < UINT_MOD) (hx : 2 * min (hlen / 2) blen ≤ hex.length)
    (hb : min (hlen / 2) blen ≤ bin.length) :
    (hex2bin hex hlen bin blen).map Prod.fst = .ok (min (hlen / 2) blen) ∧
      min (hlen / 2) blen ≤ blen ∧ min (hlen / 2) blen ≤ hlen / 2 := by
  rw [hex2bin_ok hex hlen bin blen hh hx hb]
  exact ⟨rfl, Nat.min_le_right _ _, Nat.min_le_left _ _⟩

/-- Witness of C3 at the largest lengths: `hlen = 2 ^ 32 - 1` with capacity 2, and
`blen = 2 ^ 32 - 1` with three characters of input. -/
theorem hex2bin_count_witness :
    ((hex2bin (ofString "zz?!") 4294967295 [0, 0] 2).map Prod.fst
        = .ok (min (4294967295 / 2) 2) ∧
      min (4294967295 / 2) 2 ≤ 2 ∧ min (4294967295 / 2) 2 ≤ 4294967295 / 2) ∧
    ((hex2bin (ofString "abc") 3 [0, 0] 4294967295).map Prod.fst
        = .ok (min (3 / 2) 4294967295) ∧
      min (3 / 2) 4294967295 ≤ 4294967295 ∧ min (3 / 2) 4294967295 ≤ 3 / 2) :=
  ⟨hex2bin_count (ofString "zz?!") 4294967295 [0, 0] 2 (by decide) (by decide) (by decide),
    hex2bin_count (ofString "abc") 3 [0, 0] 4294967295 (by decide) (by decide) (by decide)⟩


/-! ## Round trip -/

theorem unhex_hexDigit : ∀ (upper : Bool), ∀ v < 16, unhex (hexDigit upper v) = v := by decide

set_option maxRecDepth 100000 in
theorem pack_div_mod : ∀ b < 256, pack (b / 16) (b % 16) = b := by decide

theorem hexEncode_length (upper : Bool) (B : List Nat) :
    (hexEncode upper B).length = 2 * B.length := by
  induction B with
  | nil => rfl
  | cons b bs ih => simp only [hexEncode, List.length_cons, ih]; omega

theorem hexEncode_getD (upper : Bool) : ∀ (B : List Nat) (k : Nat), k < B.length →
    (hexEncode upper B).getD (2 * k) 0 = hexDigit upper (B.getD k 0 / 16) ∧
    (hexEncode upper B).getD (2 * k + 1) 0 = hexDigit upper (B.getD k 0 % 16)
  | [], k, hk => absurd hk (Nat.not_lt_zero k)
  | b :: bs, 0, _ => ⟨rfl, rfl⟩
  | b :: bs, k + 1, hk => by
    have ih := hexEncode_getD upper bs k (Nat.lt_of_succ_lt_succ hk)
    have e : 2 * (k + 1) = 2 * k + 1 + 1 := by ring
    simp only [hexEncode, e, List.getD_cons_succ]
    exact ih

theorem byteAt_hexEncode (upper : Bool) (B : List Nat) (hB : ∀ b ∈ B, b < 256) (k : Nat)
    (hk : k < B.length) : byteAt (hexEncode upper B) k = B.getD k 0 := by
  have hlt : B.getD k 0 < 256 := by
    rw [List.getD_eq_getElem _ _ hk]
    exact hB _ (List.getElem_mem hk)
  have h := hexEncode_getD upper B k hk
  unfold byteAt
  rw [h.1, h.2, unhex_hexDigit upper _ (by omega), unhex_hexDigit upper _ (by omega)]
  exact pack_div_mod _ hlt

theorem decode_hexEncode (upper : Bool) (B : List Nat) (hB : ∀ b ∈ B, b < 256) :
    decode (hexEncode upper B) B.length = B := by
  apply List.ext_getElem?
  intro k
  by_cases hk : k < B.length
  · rw [getElem?_decode _ _ _ hk, byteAt_hexEncode upper B hB k hk,
      List.getD_eq_getElem _ _ hk, List.getElem?_eq_getElem hk]
  · rw [List.getElem?_eq_none (by rw [decode_length]; omega),
      List.getElem?_eq_none (by omega)]

/-- C4: round trip. For every byte sequence `B` (bytes below 256, `2 * |B|` below
`2 ^ 32`), encoded with two digits per byte, high nibble first, in lowercase or in
uppercase, `hex2bin` on the text with `hlen = 2 * |B|` and a capacity `blen ≥ |B|`
returns `|B|` and leaves `B` in the first `|B|` output bytes (the rest of the output
buffer is as before). -/
theorem hex2bin_hexEncode (upper : Bool) (B : List Nat) (bin : List Nat) (blen : Nat)
    (hB : ∀ b ∈ B, b < 256) (h32 : 2 * B.length < UINT_MOD) (hcap : B.length ≤ blen)
    (hb : blen ≤ bin.length) :
    hex2bin (hexEncode upper B) (2 * B.length) bin blen
      = .ok (B.length, B ++ bin.drop B.length) := by
  have hmin : min (2 * B.length / 2) blen = B.length := by
    rw [Nat.mul_div_cancel_left _ (by decide : 0 < 2)]; exact Nat.min_eq_left hcap
  have h := hex2bin_ok (hexEncode upper B) (2 * B.length) bin blen h32
    (by rw [hmin, hexEncode_length]) (by rw [hmin]; omega)
  rw [hmin, decode_hexEncode upper B hB] at h
  exact h

/-- Witness of C4: the bytes `DE AD 00 7F` through `"dead007f"` and `"DEAD007F"`. -/
theorem hex2bin_hexEncode_witness :
    hexEncode false [0xDE, 0xAD, 0x00, 0x7F] = ofString "dead007f" ∧
    hexEncode true [0xDE, 0xAD, 0x00, 0x7F] = ofString "DEAD007F" ∧
    hex2bin (hexEncode false [0xDE, 0xAD, 0x00, 0x7F]) (2 * [0xDE, 0xAD, 0x00, 0x7F].length)
        [9, 9, 9, 9, 9] 5
      = .ok ([0xDE, 0xAD, 0x00, 0x7F].length,
          [0xDE, 0xAD, 0x00, 0x7F] ++ [9, 9, 9, 9, 9].drop [0xDE, 0xAD, 0x00, 0x7F].length) ∧
    hex2bin (hexEncode true [0xDE, 0xAD, 0x00, 0x7F]) (2 * [0xDE, 0xAD, 0x00, 0x7F].length)
        [9, 9, 9, 9, 9] 5
      = .ok ([0xDE, 0xAD, 0x00, 0x7F].length,
          [0xDE, 0xAD, 0x00, 0x7F] ++ [9, 9, 9, 9, 9].drop [0xDE, 0xAD, 0x00, 0x7F].length) :=
  ⟨by decide, by decide,
    hex2bin_hexEncode false [0xDE, 0xAD, 0x00, 0x7F] [9, 9, 9, 9, 9] 5 (by decide) (by decide)
      (by decide) (by decide),
    hex2bin_hexEncode true [0xDE, 0xAD, 0x00, 0x7F] [9, 9, 9, 9, 9] 5 (by decide) (by decide)
      (by decide) (by decide)⟩

/-! ## Truncation, frame and odd lengths -/

theorem getD_take (hex : List Int) (m k : Nat) (hk : k < m) :
    (hex.take m).getD k 0 = hex.getD k 0 := by
  rw [List.getD_eq_getElem?_getD, List.getD_eq_getElem?_getD, List.getElem?_take_of_lt hk]

theorem getD_set_ne (hex : List Int) (m k : Nat) (c : Int) (hk : m ≠ k) :
    (hex.set m c).getD k 0 = hex.getD k 0 := by
  rw [List.getD_eq_getElem?_getD, List.getD_eq_getElem?_getD, List.getElem?_set_ne hk]

/-- C5: truncation. On `hlen` valid digits the returned count `n` is below `hlen / 2`
exactly when `blen < hlen / 2`; in that case `n = blen`, the result is the one
obtained from the first `2 * blen` characters alone, and output byte `k < blen` is
`16 * hexval hex[2k] + hexval hex[2k+1]`. -/
theorem hex2bin_truncation (hex : List Int) (hlen : Nat) (bin : List Nat) (blen : Nat)
    (hlen_eq : hex.length = hlen) (hv : ∀ c ∈ hex, isHexDigit c)
    (hh : hlen < UINT_MOD) (hb : blen ≤ bin.length) :
    ∃ n out, hex2bin hex hlen bin blen = .ok (n, out) ∧
      (n < hlen / 2 ↔ blen < hlen / 2) ∧
      (blen < hlen / 2 →
        n = blen ∧
        hex2bin (hex.take (2 * blen)) (2 * blen) bin blen = .ok (n, out) ∧
        ∀ k, k < blen →
          out[k]? = some (16 * hexval (hex.getD (2 * k) 0) + hexval (hex.getD (2 * k + 1) 0))) := by
  have hM : UINT_MOD = 4294967296 := rfl
  have hle : min (hlen / 2) blen ≤ blen := Nat.min_le_right _ _
  have hle2 : min (hlen / 2) blen ≤ hlen / 2 := Nat.min_le_left _ _
  have h := hex2bin_ok hex hlen bin blen hh (by omega) (by omega)
  refine ⟨_, _, h, ?_, ?_⟩
  · constructor
    · intro h1
      rcases Nat.le_total (hlen / 2) blen with h2 | h2
      · rw [Nat.min_eq_left h2] at h1; omega
      · rw [Nat.min_eq_right h2] at h1; exact h1
    · intro h1
      rw [Nat.min_eq_right (Nat.le_of_lt h1)]; exact h1
  · intro hlt
    have hmin : min (hlen / 2) blen = blen := Nat.min_eq_right (Nat.le_of_lt hlt)
    have hmin' : min (2 * blen / 2) blen = blen := by
      rw [Nat.mul_div_cancel_left _ (by decide : 0 < 2)]; exact Nat.min_self _
    have h' := hex2bin_ok (hex.take (2 * blen)) (2 * blen) bin blen (by omega)
      (by rw [hmin', List.length_take]; omega) (by rw [hmin']; exact hb)
    rw [hmin', decode_congr (hex.take (2 * blen)) hex blen
      (fun k hk => by rw [getD_take hex _ k hk])] at h'
    rw [hmin]
    refine ⟨rfl, h', ?_⟩
    intro k hk
    rw [getElem?_out_lt hex _ k _ hk, byteAt_valid hex k hv (by omega)]

/-- Witness of C5: `"deadbeef"` with `hlen = 8`, `blen = 2` returns 2 and writes
`DE AD` only. -/
theorem hex2bin_truncation_witness :
    hex2bin (ofString "deadbeef") 8 [0, 0, 0, 0] 2 = .ok (2, [0xDE, 0xAD, 0, 0]) ∧
    ∃ n out, hex2bin (ofString "deadbeef") 8 [0, 0, 0, 0] 2 = .ok (n, out) ∧
      (n < 8 / 2 ↔ 2 < 8 / 2) ∧
      (2 < 8 / 2 →
        n = 2 ∧
        hex2bin ((ofString "deadbeef").take (2 * 2)) (2 * 2) [0, 0, 0, 0] 2 = .ok (n, out) ∧
        ∀ k, k < 2 →
          out[k]? = some (16 * hexval ((ofString "deadbeef").getD (2 * k) 0)
            + hexval ((ofString "deadbeef").getD (2 * k + 1) 0))) :=
  ⟨by decide,
    hex2bin_truncation (ofString "deadbeef") 8 [0, 0, 0, 0] 2 (by decide) (by decide)
      (by decide) (by decide)⟩


/-- C6: frame. For every input and every initial output buffer, `hex2bin` returns a
count `n ≤ blen` and an output buffer of the same length in which every position
`k ≥ n`, hence every position `k ≥ blen`, holds the byte it held before; the
positions whose byte changed number at most `blen`. -/
theorem hex2bin_frame (hex : List Int) (hlen : Nat) (bin : List Nat) (blen : Nat)
    (hh : hlen < UINT_MOD) (hx : hlen ≤ hex.length) (hb : blen ≤ bin.length) :
    ∃ n out, hex2bin hex hlen bin blen = .ok (n, out) ∧ n ≤ blen ∧
      out.length = bin.length ∧ (∀ k, n ≤ k → out[k]? = bin[k]?) ∧
      (∀ k, blen ≤ k → out[k]? = bin[k]?) ∧
      ((List.range bin.length).filter (fun k => decide (out[k]? ≠ bin[k]?))).length ≤ blen := by
  have hle : min (hlen / 2) blen ≤ blen := Nat.min_le_right _ _
  have hle2 : min (hlen / 2) blen ≤ hlen / 2 := Nat.min_le_left _ _
  have h := hex2bin_ok hex hlen bin blen hh (by omega) (by omega)
  have hfr : ∀ k, min (hlen / 2) blen ≤ k →
      (decode hex (min (hlen / 2) blen) ++ bin.drop (min (hlen / 2) blen))[k]? = bin[k]? :=
    fun k hk => getElem?_out_ge hex _ k bin hk
  refine ⟨_, _, h, hle, out_length hex _ bin (by omega), hfr, ?_, ?_⟩
  · intro k hk
    exact hfr k (by omega)
  · have hsub : ∀ k ∈ (List.range bin.length).filter
        (fun k => decide ((decode hex (min (hlen / 2) blen)
          ++ bin.drop (min (hlen / 2) blen))[k]? ≠ bin[k]?)), k ∈ List.range blen := by
      intro k hk
      rw [List.mem_filter] at hk
      rw [List.mem_range]
      by_contra hge
      have := hfr k (by omega)
      simp [this] at hk
    have hnd : ((List.range bin.length).filter
        (fun k => decide ((decode hex (min (hlen / 2) blen)
          ++ bin.drop (min (hlen / 2) blen))[k]? ≠ bin[k]?))).Nodup :=
      (List.nodup_range _).filter _
    have := (List.subperm_of_subset hnd hsub).length_le
    simpa using this

/-- Witness of C6: with capacity 2 the bytes at positions 2, 3 and 4 stay 3, 4, 5. -/
theorem hex2bin_frame_witness :
    hex2bin (ofString "deadbeef") 8 [1, 2, 3, 4, 5] 2 = .ok (2, [0xDE, 0xAD, 3, 4, 5]) ∧
    ∃ n out, hex2bin (ofString "deadbeef") 8 [1, 2, 3, 4, 5] 2 = .ok (n, out) ∧ n ≤ 2 ∧
      out.length = [1, 2, 3, 4, 5].length ∧ (∀ k, n ≤ k → out[k]? = [1, 2, 3, 4, 5][k]?) ∧
      (∀ k, 2 ≤ k → out[k]? = [1, 2, 3, 4, 5][k]?) ∧
      ((List.range [1, 2, 3, 4, 5].length).filter
        (fun k => decide (out[k]? ≠ [1, 2, 3, 4, 5][k]?))).length ≤ 2 :=
  ⟨by decide,
    hex2bin_frame (ofString "deadbeef") 8 [1, 2, 3, 4, 5] 2 (by decide) (by decide) (by decide)⟩

/-- C7: odd length. For odd `hlen`, `hex2bin` with `hlen` returns the same count and
the same output buffer as with `hlen - 1`, and replacing the last character
`hex[hlen - 1]` by any other changes neither. -/
theorem hex2bin_odd (hex : List Int) (hlen : Nat) (bin : List Nat) (blen : Nat)
    (hodd : hlen % 2 = 1) (hh : hlen < UINT_MOD) (hx : hlen ≤ hex.length)
    (hb : blen ≤ bin.length) :
    ∃ n out, hex2bin hex hlen bin blen = .ok (n, out) ∧
      hex2bin hex (hlen - 1) bin blen = .ok (n, out) ∧
      ∀ c, hex2bin (hex.set (hlen - 1) c) hlen bin blen = .ok (n, out) := by
  have hle : min (hlen / 2) blen ≤ blen := Nat.min_le_right _ _
  have hle2 : min (hlen / 2) blen ≤ hlen / 2 := Nat.min_le_left _ _
  have hdiv : (hlen - 1) / 2 = hlen / 2 := by omega
  have h := hex2bin_ok hex hlen bin blen hh (by omega) (by omega)
  have h1 := hex2bin_ok hex (hlen - 1) bin blen (by omega) (by rw [hdiv]; omega)
    (by rw [hdiv]; omega)
  rw [hdiv] at h1
  refine ⟨_, _, h, h1, ?_⟩
  intro c
  have h2 := hex2bin_ok (hex.set (hlen - 1) c) hlen bin blen hh
    (by rw [List.length_set]; omega) (by omega)
  rw [decode_congr (hex.set (hlen - 1) c) hex _
    (fun k hk => by rw [getD_set_ne hex _ k c (by omega)])] at h2
  exact h2

/-- Witness of C7: `"abc"` with `hlen = 3`, `blen = 10` returns 1 and writes `AB`. -/
theorem hex2bin_odd_witness :
    hex2bin (ofString "abc") 3 [0, 0, 0, 0, 0, 0, 0, 0, 0, 0] 10
      = .ok (1, [0xAB, 0, 0, 0, 0, 0, 0, 0, 0, 0]) ∧
    ∃ n out, hex2bin (ofString "abc") 3 [0, 0, 0, 0, 0, 0, 0, 0, 0, 0] 10 = .ok (n, out) ∧
      hex2bin (ofString "abc") (3 - 1) [0, 0, 0, 0, 0, 0, 0, 0, 0, 0] 10 = .ok (n, out) ∧
      ∀ c, hex2bin ((ofString "abc").set (3 - 1) c) 3 [0, 0, 0, 0, 0, 0, 0, 0, 0, 0] 10
        = .ok (n, out) :=
  ⟨by decide,
    hex2bin_odd (ofString "abc") 3 [0, 0, 0, 0, 0, 0, 0, 0, 0, 0] 10 (by decide) (by decide)
      (by decide) (by decide)⟩

/-! ## Case of the letters -/

theorem unhex_sameUpToCase (c d : Int) (h : sameUpToCase c d) : unhex c = unhex d := by
  rcases h with h | ⟨h1, h2, h3⟩ | ⟨h1, h2, h3⟩
  · rw [h]
  · subst h3; interval_cases c <;> decide
  · subst h3; interval_cases d <;> decide

theorem unhex_getD_of_forall₂ (hex hex' : List Int) (h : List.Forall₂ sameUpToCase hex hex') :
    ∀ k, unhex (hex.getD k 0) = unhex (hex'.getD k 0) := by
  induction h with
  | nil => intro k; rfl
  | cons hcd _ ih =>
    intro k
    cases k with
    | zero => exact unhex_sameUpToCase _ _ hcd
    | succ k => simpa using ih k

theorem isHexDigit_of_sameUpToCase (c d : Int) (hc : isHexDigit c) (h : sameUpToCase c d) :
    isHexDigit d := by
  rcases h with h | ⟨h1, h2, h3⟩ | ⟨h1, h2, h3⟩
  · rw [← h]; exact hc
  · subst h3; right; right; constructor <;> omega
  · right; left; exact ⟨h1, h2⟩

theorem isHexDigit_of_forall₂ (hex hex' : List Int) (h : List.Forall₂ sameUpToCase hex hex') :
    (∀ c ∈ hex, isHexDigit c) → ∀ d ∈ hex', isHexDigit d := by
  induction h with
  | nil => intro _ d hd; cases hd
  | @cons a b l l' hab _ ih =>
    intro hv d hd
    rcases List.mem_cons.mp hd with rfl | hd'
    · exact isHexDigit_of_sameUpToCase a _ (hv a (List.mem_cons_self _ _)) hab
    · exact ih (fun x hx => hv x (List.mem_cons_of_mem _ hx)) d hd'

/-- C8: case-insensitivity. `unhex` of a letter `a`..`f` equals `unhex` of its
uppercase letter (32 below), and two inputs of valid digits of the same length that
differ only in the case of their letters give, with the same `blen`, the same count
and the same output bytes. -/
theorem hex2bin_case_insensitive (hex hex' : List Int) (hlen : Nat) (bin : List Nat)
    (blen : Nat) (hv : ∀ c ∈ hex, isHexDigit c) (hcase : List.Forall₂ sameUpToCase hex hex')
    (hlen_eq : hex.length = hlen) (hh : hlen < UINT_MOD) (hb : blen ≤ bin.length) :
    (∀ c : Int, 97 ≤ c → c ≤ 102 → unhex c = unhex (c - 32)) ∧
    (∀ c ∈ hex', isHexDigit c) ∧ hex'.length = hlen ∧
    ∃ n out, hex2bin hex hlen bin blen = .ok (n, out) ∧
      hex2bin hex' hlen bin blen = .ok (n, out) := by
  have hle : min (hlen / 2) blen ≤ blen := Nat.min_le_right _ _
  have hle2 : min (hlen / 2) blen ≤ hlen / 2 := Nat.min_le_left _ _
  have hlen' : hex'.length = hlen := by rw [← hcase.length_eq, hlen_eq]
  refine ⟨fun c h1 h2 => unhex_sameUpToCase c (c - 32) (Or.inr (Or.inl ⟨h1, h2, rfl⟩)),
    ?_, hlen', ?_⟩
  · exact isHexDigit_of_forall₂ hex hex' hcase hv
  · have h := hex2bin_ok hex hlen bin blen hh (by omega) (by omega)
    have h' := hex2bin_ok hex' hlen bin blen hh (by omega) (by omega)
    rw [decode_congr hex' hex _ (fun k _ => (unhex_getD_of_forall₂ hex hex' hcase k).symm)] at h'
    exact ⟨_, _, h, h'⟩

/-- Witness of C8: `"c0ffEE"` and `"C0FfeE"` both decode to `C0 FF EE`. -/
theorem hex2bin_case_insensitive_witness :
    hex2bin (ofString "c0ffEE") 6 [0, 0, 0] 3 = .ok (3, [0xC0, 0xFF, 0xEE]) ∧
    hex2bin (ofString "C0FfeE") 6 [0, 0, 0] 3 = .ok (3, [0xC0, 0xFF, 0xEE]) ∧
    (∀ c : Int, 97 ≤ c → c ≤ 102 → unhex c = unhex (c - 32)) ∧
    (∀ c ∈ ofString "C0FfeE", isHexDigit c) ∧ (ofString "C0FfeE").length = 6 ∧
    ∃ n out, hex2bin (ofString "c0ffEE") 6 [0, 0, 0] 3 = .ok (n, out) ∧
      hex2bin (ofString "C0FfeE") 6 [0, 0, 0] 3 = .ok (n, out) :=
  ⟨by decide, by decide,
    hex2bin_case_insensitive (ofString "c0ffEE") (ofString "C0FfeE") 6 [0, 0, 0] 3
      (by decide) (by simp [ofString, sameUpToCase]) (by decide) (by decide) (by decide)⟩

/-! ## Degenerate lengths -/

/-- C9: for `hlen = 0` and for `hlen = 1`, whatever the input, the capacity and the
output buffer, `hex2bin` returns 0 and the output buffer is unchanged. -/
theorem hex2bin_hlen_le_one (hex : List Int) (bin : List Nat) (blen : Nat) :
    hex2bin hex 0 bin blen = .ok (0, bin) ∧ hex2bin hex 1 bin blen = .ok (0, bin) := by
  constructor <;>
  · unfold hex2bin
    apply loop_stop
    simp [UINT_MOD]

/-- C10: for `blen = 0`, whatever the input, `hlen` and the output buffer, `hex2bin`
returns 0 and the output buffer is unchanged. -/
theorem hex2bin_blen_zero (hex : List Int) (hlen : Nat) (bin : List Nat) :
    hex2bin hex hlen bin 0 = .ok (0, bin) := by
  unfold hex2bin
  apply loop_stop
  simp


/-! ## Termination -/

theorem loop_no_fuel_fault (hex : List Int) (hlen blen : Nat) (hb32 : blen < UINT_MOD) :
    ∀ (fuel i j : Nat) (bin : List Nat), i ≤ blen → blen - i ≤ fuel →
      hex2bin.loop hex hlen blen fuel i j bin ≠ .error .fuel := by
  have hM : UINT_MOD = 4294967296 := rfl
  intro fuel
  induction fuel with
  | zero =>
    intro i j bin h1 h2
    rw [loop_stop _ _ _ _ _ _ _ (by omega)]
    exact fun h => by cases h
  | succ fuel ih =>
    intro i j bin h1 h2
    by_cases hc : i < blen ∧ (j + 1) % UINT_MOD < hlen
    · rw [hex2bin.loop.eq_def]
      simp only [hc, and_self, if_true]
      split
      · split
        · rw [Nat.mod_eq_of_lt (by omega : i + 1 < UINT_MOD)]
          exact ih _ _ _ (by omega) (by omega)
        · exact fun h => by cases h
      · exact fun h => by cases h
    · rw [loop_stop _ _ _ _ _ _ _ hc]
      exact fun h => by cases h

theorem loop_out_of_fuel (hex : List Int) (hlen blen i j : Nat) (bin : List Nat)
    (h : i < blen ∧ (j + 1) % UINT_MOD < hlen) :
    hex2bin.loop hex hlen blen 0 i j bin = .error .fuel := by
  rw [hex2bin.loop.eq_def]
  simp only [h, and_self, if_true]

theorem loop_fuel_short (hex : List Int) (hlen blen n : Nat) (hh : hlen < UINT_MOD)
    (hn : n = min (hlen / 2) blen) (hx : 2 * n ≤ hex.length) :
    ∀ (fuel i : Nat) (bin : List Nat), fuel + i < n → n ≤ bin.length →
      hex2bin.loop hex hlen blen fuel i (2 * i) bin = .error .fuel := by
  have hM : UINT_MOD = 4294967296 := rfl
  have hn1 : n ≤ hlen / 2 := hn ▸ Nat.min_le_left _ _
  have hn2 : n ≤ blen := hn ▸ Nat.min_le_right _ _
  clear hn
  intro fuel
  induction fuel with
  | zero =>
    intro i bin h1 _
    apply loop_out_of_fuel
    rw [Nat.mod_eq_of_lt (by omega)]
    omega
  | succ fuel ih =>
    intro i bin h1 h2
    rw [loop_step hex hlen blen fuel i bin hh (by omega) (by omega) (by omega) (by omega)]
    exact ih (i + 1) _ (by omega) (by simpa using h2)

theorem iterations_eq (hlen blen n : Nat) (hh : hlen < UINT_MOD)
    (hn : n = min (hlen / 2) blen) :
    ∀ (fuel i : Nat), i ≤ n → n - i ≤ fuel →
      hex2bin.iterations hlen blen fuel i (2 * i)
        = (List.range' i (n - i)).map (fun k => (k, 2 * k)) := by
  have hM : UINT_MOD = 4294967296 := rfl
  have hn1 : n ≤ hlen / 2 := hn ▸ Nat.min_le_left _ _
  have hn2 : n ≤ blen := hn ▸ Nat.min_le_right _ _
  have hn3 : n = hlen / 2 ∨ n = blen := by
    rcases Nat.le_total (hlen / 2) blen with h | h
    · left; rw [hn]; exact Nat.min_eq_left h
    · right; rw [hn]; exact Nat.min_eq_right h
  clear hn
  intro fuel
  induction fuel with
  | zero =>
    intro i h1 h2
    have hi : n - i = 0 := by omega
    rw [hi]; rfl
  | succ fuel ih =>
    intro i h1 h2
    by_cases hi : i = n
    · have hc : ¬ (i < blen ∧ (2 * i + 1) % UINT_MOD < hlen) := by
        rw [Nat.mod_eq_of_lt (by omega)]; omega
      rw [hex2bin.iterations, if_neg hc, hi, Nat.sub_self]; rfl
    · have hc : i < blen ∧ (2 * i + 1) % UINT_MOD < hlen := by
        rw [Nat.mod_eq_of_lt (by omega)]; omega
      have e2 : (2 * i + 2) % UINT_MOD = 2 * (i + 1) := by
        rw [Nat.mod_eq_of_lt (by omega)]; ring
      have e3 : (i + 1) % UINT_MOD = i + 1 := Nat.mod_eq_of_lt (by omega)
      have hk : n - i = (n - (i + 1)) + 1 := by omega
      rw [hex2bin.iterations, if_pos hc, e2, e3, ih (i + 1) (by omega) (by omega), hk,
        List.range'_succ]
      rfl

/-- C11: termination. For `hlen` and `blen` below `2 ^ 32` and every input, the loop
of `hex2bin` never runs out of the fuel `blen` it is given; `blen - i` decreases in
every iteration, and so does `hlen - j` (for `j` even, as it always is); the body
runs `min (hlen / 2) blen` times; and with buffers of `hlen` characters and `blen`
bytes the loop returns with exactly that many units of fuel and with no fewer. -/
theorem hex2bin_terminates (hex : List Int) (hlen : Nat) (bin : List Nat) (blen : Nat)
    (hh : hlen < UINT_MOD) (hb32 : blen < UINT_MOD) :
    hex2bin hex hlen bin blen ≠ .error .fuel ∧
    (∀ i j, i < blen ∧ (j + 1) % UINT_MOD < hlen → blen - (i + 1) % UINT_MOD < blen - i) ∧
    (∀ i j, j % 2 = 0 → j < UINT_MOD → i < blen ∧ (j + 1) % UINT_MOD < hlen →
      hlen - (j + 2) % UINT_MOD < hlen - j) ∧
    (hex2bin.iterations hlen blen blen 0 0).length = min (hlen / 2) blen ∧
    (hlen ≤ hex.length → blen ≤ bin.length →
      (∃ out, hex2bin hex hlen bin blen = .ok (min (hlen / 2) blen, out)) ∧
      (∀ fuel, min (hlen / 2) blen ≤ fuel →
        hex2bin.loop hex hlen blen fuel 0 0 bin = hex2bin hex hlen bin blen) ∧
      (∀ fuel, fuel < min (hlen / 2) blen →
        hex2bin.loop hex hlen blen fuel 0 0 bin = .error .fuel)) := by
  have hM : UINT_MOD = 4294967296 := rfl
  have hle : min (hlen / 2) blen ≤ blen := Nat.min_le_right _ _
  have hle2 : min (hlen / 2) blen ≤ hlen / 2 := Nat.min_le_left _ _
  refine ⟨loop_no_fuel_fault hex hlen blen hb32 blen 0 0 bin (Nat.zero_le _) (by omega),
    ?_, ?_, ?_, ?_⟩
  · intro i j hc
    rw [Nat.mod_eq_of_lt (by omega)]
    omega
  · intro i j hj hjM hc
    have h1 := hc.2
    rw [Nat.mod_eq_of_lt (by omega)] at h1
    rw [Nat.mod_eq_of_lt (by omega)]
    omega
  · have h := iterations_eq hlen blen _ hh rfl blen 0 (Nat.zero_le _) (by omega)
    rw [h]
    simp
  · intro hx hb
    have hok := hex2bin_ok hex hlen bin blen hh (by omega) (by omega)
    refine ⟨⟨_, hok⟩, ?_, ?_⟩
    · intro fuel hf
      have h := loop_eq hex hlen blen _ hh rfl (by omega) fuel 0 bin (Nat.zero_le _)
        (by omega) (by omega)
      have h' := loop_eq hex hlen blen _ hh rfl (by omega) blen 0 bin (Nat.zero_le _)
        (by omega) (by omega)
      rw [hex2bin, h, h']
    · intro fuel hf
      exact loop_fuel_short hex hlen blen _ hh rfl (by omega) fuel 0 bin (by omega) (by omega)


/-- Witness of C11: on `"deadbeef"` with capacity 3 the body runs 3 times; 2 units of
fuel are too few and 3 are enough. -/
theorem hex2bin_terminates_witness :
    hex2bin.iterations 8 3 3 0 0 = [(0, 0), (1, 2), (2, 4)] ∧
    hex2bin.loop (ofString "deadbeef") 8 3 2 0 0 [0, 0, 0] = .error .fuel ∧
    hex2bin.loop (ofString "deadbeef") 8 3 3 0 0 [0, 0, 0] = .ok (3, [0xDE, 0xAD, 0xBE]) ∧
    (hex2bin (ofString "deadbeef") 8 [0, 0, 0] 3 ≠ .error .fuel ∧
    (∀ i j, i < 3 ∧ (j + 1) % UINT_MOD < 8 → 3 - (i + 1) % UINT_MOD < 3 - i) ∧
    (∀ i j, j % 2 = 0 → j < UINT_MOD → i < 3 ∧ (j + 1) % UINT_MOD < 8 →
      8 - (j + 2) % UINT_MOD < 8 - j) ∧
    (hex2bin.iterations 8 3 3 0 0).length = min (8 / 2) 3 ∧
    (8 ≤ (ofString "deadbeef").length → 3 ≤ [0, 0, 0].length →
      (∃ out, hex2bin (ofString "deadbeef") 8 [0, 0, 0] 3 = .ok (min (8 / 2) 3, out)) ∧
      (∀ fuel, min (8 / 2) 3 ≤ fuel →
        hex2bin.loop (ofString "deadbeef") 8 3 fuel 0 0 [0, 0, 0]
          = hex2bin (ofString "deadbeef") 8 [0, 0, 0] 3) ∧
      (∀ fuel, fuel < min (8 / 2) 3 →
        hex2bin.loop (ofString "deadbeef") 8 3 fuel 0 0 [0, 0, 0] = .error .fuel))) :=
  ⟨by decide, by decide, by decide,
    hex2bin_terminates (ofString "deadbeef") 8 [0, 0, 0] 3 (by decide) (by decide)⟩

/-! ## Refinement of the nibble decoder -/

theorem hex2binWith_loop_eq (f : Int → Nat) (hex : List Int) (hlen blen : Nat)
    (hf : ∀ c ∈ hex, f c = unhex c) :
    ∀ (fuel i j : Nat) (bin : List Nat),
      hex2binWith.loop f hex hlen blen fuel i j bin = hex2bin.loop hex hlen blen fuel i j bin := by
  intro fuel
  induction fuel with
  | zero =>
    intro i j bin
    rw [hex2binWith.loop.eq_def, hex2bin.loop.eq_def]
  | succ fuel ih =>
    intro i j bin
    rw [hex2binWith.loop.eq_def, hex2bin.loop.eq_def]
    by_cases hc : i < blen ∧ (j + 1) % UINT_MOD < hlen
    · simp only [hc, and_self, if_true]
      rcases h0 : hex[j]? with _ | c0
      · rfl
      · rcases h1 : hex[(j + 1) % UINT_MOD]? with _ | c1
        · rfl
        · simp only [hf c0 (List.getElem?_mem h0), hf c1 (List.getElem?_mem h1), ih]
    · simp only [hc, if_false]

/-- With `unhex` itself as the decoder, `hex2binWith` is `hex2bin`. -/
theorem hex2binWith_unhex (hex : List Int) (hlen : Nat) (bin : List Nat) (blen : Nat) :
    hex2binWith unhex hex hlen bin blen = hex2bin hex hlen bin blen :=
  hex2binWith_loop_eq unhex hex hlen blen (fun _ _ => rfl) blen 0 0 bin

theorem unhexTable_eq (c : Int) (hc : isHexDigit c) : unhexTable c = unhex c := by
  rcases hc with ⟨h1, h2⟩ | ⟨h1, h2⟩ | ⟨h1, h2⟩ <;> interval_cases c <;> decide

/-- C12: refinement. For every nibble decoder `f` that agrees with `unhex` on the 22
valid digits and every input made of valid digits only, `hex2bin` built on `f` gives,
for every `hlen` and `blen`, the result of `hex2bin` built on `unhex`: the same count
and the same output bytes (and a result it is, whenever the buffers hold `hlen`
characters and `blen` bytes). -/
theorem hex2binWith_refines (f : Int → Nat) (hex : List Int) (hlen : Nat) (bin : List Nat)
    (blen : Nat) (hf : ∀ c, isHexDigit c → f c = unhex c) (hv : ∀ c ∈ hex, isHexDigit c) :
    hex2binWith f hex hlen bin blen = hex2bin hex hlen bin blen ∧
    (hlen < UINT_MOD → hlen ≤ hex.length → blen ≤ bin.length →
      ∃ n out, hex2binWith f hex hlen bin blen = .ok (n, out) ∧
        hex2bin hex hlen bin blen = .ok (n, out)) := by
  have heq : hex2binWith f hex hlen bin blen = hex2bin hex hlen bin blen :=
    hex2binWith_loop_eq f hex hlen blen (fun c hc => hf c (hv c hc)) blen 0 0 bin
  refine ⟨heq, ?_⟩
  intro hh hx hb
  have hle : min (hlen / 2) blen ≤ blen := Nat.min_le_right _ _
  have hle2 : min (hlen / 2) blen ≤ hlen / 2 := Nat.min_le_left _ _
  have h := hex2bin_ok hex hlen bin blen hh (by omega) (by omega)
  exact ⟨_, _, heq.trans h, h⟩

/-- Witness of C12 with the lookup table `unhexTable` as the decoder. -/
theorem hex2binWith_refines_witness :
    hex2binWith unhexTable (ofString "c0FFee") 6 [0, 0, 0] 3 = .ok (3, [0xC0, 0xFF, 0xEE]) ∧
    (∀ c, isHexDigit c → unhexTable c = unhex c) ∧
    (∀ c ∈ ofString "c0FFee", isHexDigit c) ∧
    hex2binWith unhexTable (ofString "c0FFee") 6 [0, 0, 0] 3
      = hex2bin (ofString "c0FFee") 6 [0, 0, 0] 3 ∧
    (6 < UINT_MOD → 6 ≤ (ofString "c0FFee").length → 3 ≤ [0, 0, 0].length →
      ∃ n out, hex2binWith unhexTable (ofString "c0FFee") 6 [0, 0, 0] 3 = .ok (n, out) ∧
        hex2bin (ofString "c0FFee") 6 [0, 0, 0] 3 = .ok (n, out)) :=
  ⟨by decide, unhexTable_eq, by decide,
    hex2binWith_refines unhexTable (ofString "c0FFee") 6 [0, 0, 0] 3 unhexTable_eq (by decide)⟩

/-! ## Packing of a byte -/

theorem pack_low_nibble (a b : Nat) (hb : b < 16) :
    pack a b / 16 = a % 16 ∧ pack a b % 16 = b := by
  have h : (a <<< 4) ||| b = 16 * a + b := by
    rw [Nat.shiftLeft_eq, Nat.mul_comm]
    exact (Nat.mul_add_lt_is_or (by simpa using hb) a).symm
  unfold pack
  rw [h]
  omega

/-- C13: per-byte packing. For every input, valid or not, and every `k` below the
returned count, output byte `k` is `((unhex hex[2k] << 4) | unhex hex[2k+1]) % 256`;
when `unhex hex[2k+1]` is below 16 its high nibble is the low four bits of
`unhex hex[2k]` and its low nibble is `unhex hex[2k+1]`; and the byte is the same for
any other input and output buffer that agree with `hex` at `2k` and `2k+1`. -/
theorem hex2bin_byte (hex : List Int) (hlen : Nat) (bin : List Nat) (blen : Nat)
    (hh : hlen < UINT_MOD) (hx : hlen ≤ hex.length) (hb : blen ≤ bin.length) :
    ∃ n out, hex2bin hex hlen bin blen = .ok (n, out) ∧
      (∀ k, k < n → out[k]? = some
        (((unhex (hex.getD (2 * k) 0) <<< 4) ||| unhex (hex.getD (2 * k + 1) 0)) % 256)) ∧
      (∀ k, k < n → unhex (hex.getD (2 * k + 1) 0) < 16 →
        ∃ v, out[k]? = some v ∧ v / 16 = unhex (hex.getD (2 * k) 0) % 16 ∧
          v % 16 = unhex (hex.getD (2 * k + 1) 0)) ∧
      (∀ (hex' : List Int) (bin' : List Nat) (k : Nat), k < n → hlen ≤ hex'.length →
        blen ≤ bin'.length → hex'.getD (2 * k) 0 = hex.getD (2 * k) 0 →
        hex'.getD (2 * k + 1) 0 = hex.getD (2 * k + 1) 0 →
        ∃ out', hex2bin hex' hlen bin' blen = .ok (n, out') ∧ out'[k]? = out[k]?) := by
  have hle : min (hlen / 2) blen ≤ blen := Nat.min_le_right _ _
  have hle2 : min (hlen / 2) blen ≤ hlen / 2 := Nat.min_le_left _ _
  have h := hex2bin_ok hex hlen bin blen hh (by omega) (by omega)
  refine ⟨_, _, h, ?_, ?_, ?_⟩
  · intro k hk
    rw [getElem?_out_lt hex _ k _ hk]
    rfl
  · intro k hk hlo
    refine ⟨_, getElem?_out_lt hex _ k _ hk, ?_⟩
    exact pack_low_nibble _ _ hlo
  · intro hex' bin' k hk hx' hb' e0 e1
    have h' := hex2bin_ok hex' hlen bin' blen hh (by omega) (by omega)
    refine ⟨_, h', ?_⟩
    rw [getElem?_out_lt hex' _ k _ hk, getElem?_out_lt hex _ k _ hk]
    unfold byteAt
    rw [e0, e1]

/-- Witness of C13 on an input with invalid characters and an odd length. -/
theorem hex2bin_byte_witness :
    hex2bin (ofString "7fzz!") 5 [0, 0, 0] 3 = .ok (2, [0x7F, 0x33, 0]) ∧
    ∃ n out, hex2bin (ofString "7fzz!") 5 [0, 0, 0] 3 = .ok (n, out) ∧
      (∀ k, k < n → out[k]? = some
        (((unhex ((ofString "7fzz!").getD (2 * k) 0) <<< 4)
          ||| unhex ((ofString "7fzz!").getD (2 * k + 1) 0)) % 256)) ∧
      (∀ k, k < n → unhex ((ofString "7fzz!").getD (2 * k + 1) 0) < 16 →
        ∃ v, out[k]? = some v ∧ v / 16 = unhex ((ofString "7fzz!").getD (2 * k) 0) % 16 ∧
          v % 16 = unhex ((ofString "7fzz!").getD (2 * k + 1) 0)) ∧
      (∀ (hex' : List Int) (bin' : List Nat) (k : Nat), k < n → 5 ≤ hex'.length →
        3 ≤ bin'.length → hex'.getD (2 * k) 0 = (ofString "7fzz!").getD (2 * k) 0 →
        hex'.getD (2 * k + 1) 0 = (ofString "7fzz!").getD (2 * k + 1) 0 →
        ∃ out', hex2bin hex' 5 bin' 3 = .ok (n, out') ∧ out'[k]? = out[k]?) :=
  ⟨by decide,
    hex2bin_byte (ofString "7fzz!") 5 [0, 0, 0] 3 (by decide) (by decide) (by decide)⟩


/-! ## Index safety -/

/-- C14: index safety. In every iteration of `hex2bin`, for `hlen` below `2 ^ 32`,
`j = 2 * i`, the sum `j + 1` does not wrap, `j` and `j + 1` are below `hlen` and `i`
is below `blen`; the increments `i + 1` and `j + 2` do not wrap and neither does the
sum `(j + 2) + 1` of the next evaluation of the loop condition. With an input of
`hlen` characters and an output of `blen` bytes `hex2bin` therefore returns a result,
not an out-of-bounds `Fault`, after as many iterations as the count it returns. -/
theorem hex2bin_index_safe (hex : List Int) (hlen : Nat) (bin : List Nat) (blen : Nat)
    (hh : hlen < UINT_MOD) :
    (∀ s ∈ hex2bin.iterations hlen blen blen 0 0,
      s.2 = 2 * s.1 ∧ s.2 + 1 < UINT_MOD ∧ (s.2 + 1) % UINT_MOD = s.2 + 1 ∧
      s.2 < hlen ∧ s.2 + 1 < hlen ∧ s.1 < blen ∧
      (s.1 + 1) % UINT_MOD = s.1 + 1 ∧ (s.2 + 2) % UINT_MOD = s.2 + 2 ∧
      (s.2 + 2 + 1) % UINT_MOD = s.2 + 2 + 1) ∧
    (hex.length = hlen → bin.length = blen →
      ∃ n out, hex2bin hex hlen bin blen = .ok (n, out) ∧
        n = (hex2bin.iterations hlen blen blen 0 0).length) := by
  have hM : UINT_MOD = 4294967296 := rfl
  have hle : min (hlen / 2) blen ≤ blen := Nat.min_le_right _ _
  have hle2 : min (hlen / 2) blen ≤ hlen / 2 := Nat.min_le_left _ _
  have hit := iterations_eq hlen blen _ hh rfl blen 0 (Nat.zero_le _) (by omega)
  constructor
  · intro s hs
    rw [hit, List.mem_map] at hs
    obtain ⟨k, hk, rfl⟩ := hs
    rw [List.mem_range'_1] at hk
    have hk' : k < min (hlen / 2) blen := by omega
    have h1 : 2 * k + 1 < UINT_MOD := by omega
    exact ⟨rfl, h1, Nat.mod_eq_of_lt h1, by omega, by omega, by omega,
      Nat.mod_eq_of_lt (by omega), Nat.mod_eq_of_lt (by omega), Nat.mod_eq_of_lt (by omega)⟩
  · intro hx hb
    have h := hex2bin_ok hex hlen bin blen hh (by omega) (by omega)
    refine ⟨_, _, h, ?_⟩
    rw [hit]
    simp

/-- Witness of C14: the iterations for `hlen = 2 ^ 32 - 1`, `blen = 3` and for
`hlen = 7`, `blen = 10` are `(0, 0)`, `(1, 2)`, `(2, 4)`. -/
theorem hex2bin_index_safe_witness :
    hex2bin.iterations 4294967295 3 3 0 0 = [(0, 0), (1, 2), (2, 4)] ∧
    hex2bin.iterations 7 10 10 0 0 = [(0, 0), (1, 2), (2, 4)] ∧
    (∀ s ∈ hex2bin.iterations 7 10 10 0 0,
      s.2 = 2 * s.1 ∧ s.2 + 1 < UINT_MOD ∧ (s.2 + 1) % UINT_MOD = s.2 + 1 ∧
      s.2 < 7 ∧ s.2 + 1 < 7 ∧ s.1 < 10 ∧
      (s.1 + 1) % UINT_MOD = s.1 + 1 ∧ (s.2 + 2) % UINT_MOD = s.2 + 2 ∧
      (s.2 + 2 + 1) % UINT_MOD = s.2 + 2 + 1) ∧
    ((ofString "c0ffee!").length = 7 → [0, 0, 0, 0, 0, 0, 0, 0, 0, 0].length = 10 →
      ∃ n out, hex2bin (ofString "c0ffee!") 7 [0, 0, 0, 0, 0, 0, 0, 0, 0, 0] 10 = .ok (n, out) ∧
        n = (hex2bin.iterations 7 10 10 0 0).length) :=
  ⟨by decide, by decide,
    hex2bin_index_safe (ofString "c0ffee!") 7 [0, 0, 0, 0, 0, 0, 0, 0, 0, 0] 10 (by decide)⟩

/-! ## Concatenation and capacity -/

theorem decode_append (a b : List Int) (n m : Nat) (ha : a.length = 2 * n) :
    decode (a ++ b) (n + m) = decode a n ++ decode b m := by
  unfold decode
  rw [List.range_add, List.map_append, List.map_map]
  congr 1
  · apply List.map_congr_left
    intro k hk
    have hk' : k < n := List.mem_range.mp hk
    unfold byteAt
    rw [List.getD_append _ _ _ _ (by omega), List.getD_append _ _ _ _ (by omega)]
  · apply List.map_congr_left
    intro k _
    simp only [Function.comp_apply, byteAt]
    rw [List.getD_append_right _ _ _ _ (by omega), List.getD_append_right _ _ _ _ (by omega)]
    congr 3 <;> omega

theorem take_out (hex : List Int) (n : Nat) (rest : List Nat) :
    (decode hex n ++ rest).take n = decode hex n :=
  List.take_left' (decode_length hex n)

/-- C15: concatenation. For inputs `a` and `b`, `a` of even length, and a capacity
`blen ≥ (|a| + |b|) / 2`, the count returned for `a ++ b` is the sum of the counts
returned for `a` and for `b`, and the bytes written for `a ++ b` are the bytes
written for `a` followed by the bytes written for `b`. -/
theorem hex2bin_append (a b : List Int) (bin : List Nat) (blen : Nat)
    (ha : a.length % 2 = 0) (h32 : a.length + b.length < UINT_MOD)
    (hcap : (a.length + b.length) / 2 ≤ blen) (hb : blen ≤ bin.length) :
    ∃ na outa nb outb out,
      hex2bin a a.length bin blen = .ok (na, outa) ∧
      hex2bin b b.length bin blen = .ok (nb, outb) ∧
      hex2bin (a ++ b) (a.length + b.length) bin blen = .ok (na + nb, out) ∧
      out.take (na + nb) = outa.take na ++ outb.take nb := by
  have hM : UINT_MOD = 4294967296 := rfl
  have hsum : (a.length + b.length) / 2 = a.length / 2 + b.length / 2 := by omega
  have hma : min (a.length / 2) blen = a.length / 2 := Nat.min_eq_left (by omega)
  have hmb : min (b.length / 2) blen = b.length / 2 := Nat.min_eq_left (by omega)
  have hmab : min ((a.length + b.length) / 2) blen = a.length / 2 + b.length / 2 := by
    rw [hsum]; exact Nat.min_eq_left (by omega)
  have h1 := hex2bin_ok a a.length bin blen (by omega) (by rw [hma]; omega) (by rw [hma]; omega)
  have h2 := hex2bin_ok b b.length bin blen (by omega) (by rw [hmb]; omega) (by rw [hmb]; omega)
  have h3 := hex2bin_ok (a ++ b) (a.length + b.length) bin blen h32
    (by rw [hmab, List.length_append]; omega) (by rw [hmab]; omega)
  rw [hma] at h1
  rw [hmb] at h2
  rw [hmab] at h3
  refine ⟨_, _, _, _, _, h1, h2, h3, ?_⟩
  rw [take_out, take_out, take_out]
  exact decode_append a b _ _ (by omega)

/-- Witness of C15: `"dead"` and `"beef"`. -/
theorem hex2bin_append_witness :
    hex2bin (ofString "dead") 4 [0, 0, 0, 0] 4 = .ok (2, [0xDE, 0xAD, 0, 0]) ∧
    hex2bin (ofString "beef") 4 [0, 0, 0, 0] 4 = .ok (2, [0xBE, 0xEF, 0, 0]) ∧
    hex2bin (ofString "dead" ++ ofString "beef") 8 [0, 0, 0, 0] 4
      = .ok (4, [0xDE, 0xAD, 0xBE, 0xEF]) ∧
    ∃ na outa nb outb out,
      hex2bin (ofString "dead") (ofString "dead").length [0, 0, 0, 0] 4 = .ok (na, outa) ∧
      hex2bin (ofString "beef") (ofString "beef").length [0, 0, 0, 0] 4 = .ok (nb, outb) ∧
      hex2bin (ofString "dead" ++ ofString "beef")
        ((ofString "dead").length + (ofString "beef").length) [0, 0, 0, 0] 4
        = .ok (na + nb, out) ∧
      out.take (na + nb) = outa.take na ++ outb.take nb :=
  ⟨by decide, by decide, by decide,
    hex2bin_append (ofString "dead") (ofString "beef") [0, 0, 0, 0] 4 (by decide) (by decide)
      (by decide) (by decide)⟩

theorem decode_take (hex : List Int) (n m : Nat) (h : n ≤ m) :
    (decode hex m).take n = decode hex n := by
  unfold decode
  rw [← List.map_take, List.take_range, Nat.min_eq_left h]

/-- C16: prefix monotonicity in the capacity. For `blen1 ≤ blen2` the count `n1`
returned with `blen1` is at most the count `n2` returned with `blen2`, and the first
`n1` bytes written with `blen2` are the `n1` bytes written with `blen1`. -/
theorem hex2bin_capacity_mono (hex : List Int) (hlen : Nat) (bin : List Nat)
    (blen1 blen2 : Nat) (hh : hlen < UINT_MOD) (hle : blen1 ≤ blen2)
    (hx : hlen ≤ hex.length) (hb : blen2 ≤ bin.length) :
    ∃ n1 out1 n2 out2,
      hex2bin hex hlen bin blen1 = .ok (n1, out1) ∧
      hex2bin hex hlen bin blen2 = .ok (n2, out2) ∧
      n1 ≤ n2 ∧ out2.take n1 = out1.take n1 ∧ ∀ k, k < n1 → out2[k]? = out1[k]? := by
  have h1a : min (hlen / 2) blen1 ≤ blen1 := Nat.min_le_right _ _
  have h1b : min (hlen / 2) blen1 ≤ hlen / 2 := Nat.min_le_left _ _
  have h2a : min (hlen / 2) blen2 ≤ blen2 := Nat.min_le_right _ _
  have h2b : min (hlen / 2) blen2 ≤ hlen / 2 := Nat.min_le_left _ _
  have hn : min (hlen / 2) blen1 ≤ min (hlen / 2) blen2 := by
    rcases Nat.le_total (hlen / 2) blen2 with h | h
    · rw [Nat.min_eq_left h]; exact h1b
    · rw [Nat.min_eq_right h]; omega
  have h1 := hex2bin_ok hex hlen bin blen1 hh (by omega) (by omega)
  have h2 := hex2bin_ok hex hlen bin blen2 hh (by omega) (by omega)
  refine ⟨_, _, _, _, h1, h2, hn, ?_, ?_⟩
  · rw [take_out, List.take_append_of_le_length (by rw [decode_length]; exact hn),
      decode_take hex _ _ hn]
  · intro k hk
    rw [getElem?_out_lt hex _ k _ hk, getElem?_out_lt hex _ k _ (by omega)]

/-- Witness of C16: `"deadbeef"` with capacities 1 and 3. -/
theorem hex2bin_capacity_mono_witness :
    hex2bin (ofString "deadbeef") 8 [0, 0, 0, 0] 1 = .ok (1, [0xDE, 0, 0, 0]) ∧
    hex2bin (ofString "deadbeef") 8 [0, 0, 0, 0] 3 = .ok (3, [0xDE, 0xAD, 0xBE, 0]) ∧
    ∃ n1 out1 n2 out2,
      hex2bin (ofString "deadbeef") 8 [0, 0, 0, 0] 1 = .ok (n1, out1) ∧
      hex2bin (ofString "deadbeef") 8 [0, 0, 0, 0] 3 = .ok (n2, out2) ∧
      n1 ≤ n2 ∧ out2.take n1 = out1.take n1 ∧ ∀ k, k < n1 → out2[k]? = out1[k]? :=
  ⟨by decide, by decide,
    hex2bin_capacity_mono (ofString "deadbeef") 8 [0, 0, 0, 0] 1 3 (by decide) (by decide)
      (by decide) (by decide)⟩

/-! ## Outside the precondition, and the bit trick -/

/-- C17: outside the precondition `unhex` is not confined to four bits. The 7-bit
character `'o'` (code `0x6F`) is no hex digit and `unhex` gives 24 for it; `hex2bin`
on `"0o"` with `hlen = 2`, `blen = 1` writes `0x18`, whose high nibble is 1 although
`unhex '0'` is 0, while `"00"` gives `0x00`: the second character of the pair has
changed the high nibble. -/
theorem unhex_invalid_overflow :
    (∃ c : Int, 0 ≤ c ∧ c < 128 ∧ ¬ isHexDigit c ∧ 15 < unhex c) ∧
    ofString "o" = [0x6F] ∧ ¬ isHexDigit 0x6F ∧ unhex 0x6F = 24 ∧
    hex2bin (ofString "0o") 2 [0] 1 = .ok (1, [0x18]) ∧
    unhex 48 = 0 ∧ pack (unhex 48) (unhex 0x6F) / 16 = 1 ∧
    pack (unhex 48) (unhex 48) / 16 = 0 ∧
    hex2bin (ofString "00") 2 [0] 1 = .ok (1, [0x00]) :=
  ⟨⟨0x6F, by decide, by decide, by decide, by decide⟩, by decide, by decide, by decide,
    by decide, by decide, by decide, by decide, by decide⟩

/-- C18: the bit trick. For a valid digit `h`, the flag `h >> 6` is 0 and
`h & 0x0F` is in 0..9 when `h` is a decimal digit, the flag is 1 and `h & 0x0F` is in
1..6 when `h` is a letter, and `unhex h = (h & 0x0F) + 9 * (h >> 6)`. -/
theorem unhex_flag (h : Int) (hv : isHexDigit h) :
    ((48 ≤ h ∧ h ≤ 57) →
      Int.shiftRight h 6 = 0 ∧ 0 ≤ Int.land h 0x0f ∧ Int.land h 0x0f ≤ 9) ∧
    ((97 ≤ h ∧ h ≤ 102) ∨ (65 ≤ h ∧ h ≤ 70) →
      Int.shiftRight h 6 = 1 ∧ 1 ≤ Int.land h 0x0f ∧ Int.land h 0x0f ≤ 6) ∧
    (unhex h : Int) = Int.land h 0x0f + 9 * Int.shiftRight h 6 := by
  rcases hv with ⟨h1, h2⟩ | ⟨h1, h2⟩ | ⟨h1, h2⟩ <;> interval_cases h <;> decide

/-- Witness of C18 at `'9'`, with the flag and the low bits of `'f'` and `'A'`. -/
theorem unhex_flag_witness :
    isHexDigit 57 ∧ isHexDigit 102 ∧ isHexDigit 65 ∧
    Int.shiftRight 57 6 = 0 ∧ Int.land 57 0x0f = 9 ∧
    Int.shiftRight 102 6 = 1 ∧ Int.land 102 0x0f = 6 ∧
    Int.shiftRight 65 6 = 1 ∧ Int.land 65 0x0f = 1 ∧
    (((48 ≤ (57 : Int) ∧ (57 : Int) ≤ 57) →
      Int.shiftRight 57 6 = 0 ∧ 0 ≤ Int.land 57 0x0f ∧ Int.land 57 0x0f ≤ 9) ∧
    ((97 ≤ (57 : Int) ∧ (57 : Int) ≤ 102) ∨ (65 ≤ (57 : Int) ∧ (57 : Int) ≤ 70) →
      Int.shiftRight 57 6 = 1 ∧ 1 ≤ Int.land 57 0x0f ∧ Int.land 57 0x0f ≤ 6) ∧
    (unhex 57 : Int) = Int.land 57 0x0f + 9 * Int.shiftRight 57 6) :=
  ⟨by decide, by decide, by decide, by decide, by decide, by decide, by decide, by decide,
    by decide, unhex_flag 57 (by decide)⟩

end Hex2Bin
